import Mathlib

set_option maxRecDepth 8192

/-!
Verification development for the bolt.diy observability and preview-automation
repository.

The repository ships the observability subsystem as documentation only: the
implementation files named by the docs (debugLogger.ts, logs.ts,
localModelHealthMonitor.ts, connection.ts, useConnectionStatus.ts) are not
included, so those components are modelled from the specification, as the doc
comments below state.  The git branch watcher (branch-watcher.js) is included
in full and is embedded from its source.

Conventions: machine strings of the branch watcher are modelled as their
character sequences (List Char), which makes every operation kernel-computable
and matches the code-unit lexicographic comparison of the JavaScript sort.
Timestamps are modelled as abstract Nat clock values.
-/

/-- Keeps the last n elements of a list, in order (drops all but the final n). -/
def lastN {α : Type} (n : Nat) (l : List α) : List α := l.drop (l.length - n)

/-- Modelled from the spec: the RingBuffer data structure of section 4.1 (named
CircularBuffer in the repository documentation, src/unnamed/part_000 lines
157-161).  The implementation file debugLogger.ts is not included in the
repository, so the structure follows the spec text: a fixed-capacity sequence
whose push appends at the newest end and, once full, overwrites (evicts) the
oldest element; push is a total function and so never fails. -/
structure RingBuffer (α : Type) where
  capacity : Nat
  buf : List α

/-- Modelled from the spec: a fresh buffer of the given capacity. -/
def RingBuffer.create (α : Type) (n : Nat) : RingBuffer α := ⟨n, []⟩

/-- Modelled from the spec: push appends the item and keeps at most capacity
elements, dropping the oldest ones (exactly one when the buffer was full). -/
def RingBuffer.push {α : Type} (rb : RingBuffer α) (x : α) : RingBuffer α :=
  { rb with buf := lastN rb.capacity (rb.buf ++ [x]) }

/-- Modelled from the spec: the number of stored elements. -/
def RingBuffer.size {α : Type} (rb : RingBuffer α) : Nat := rb.buf.length

/-- Modelled from the spec: the stored elements, oldest to newest. -/
def RingBuffer.toArray {α : Type} (rb : RingBuffer α) : List α := rb.buf

/-- Modelled from the spec: clear empties the buffer. -/
def RingBuffer.clear {α : Type} (rb : RingBuffer α) : RingBuffer α :=
  { rb with buf := [] }

/-- Pushes a whole list of items, oldest first. -/
def RingBuffer.pushAll {α : Type} (rb : RingBuffer α) (xs : List α) : RingBuffer α :=
  xs.foldl RingBuffer.push rb

/-- Modelled from the spec: the log levels of the event log store (logs.ts is
not included in the repository; section 3 of the spec lists the levels). -/
inductive LogLevel
  | info
  | warning
  | error
  | debug
deriving DecidableEq

/-- Modelled from the spec: the categories of the event log store. -/
inductive LogCategory
  | system
  | provider
  | user
  | error
  | api
  | auth
  | database
  | network
  | performance
  | settings
  | task
  | update
  | feature
deriving DecidableEq

/-- Modelled from the spec: a stored log entry.  The timestamp is an abstract
clock value (the ISO rendering of the wall clock is outside the model); id is
assigned by the store; read is the read/unread toggle. -/
structure LogEntry where
  id : Nat
  timestamp : Nat
  level : LogLevel
  category : LogCategory
  component : Option String
  message : String
  read : Bool
deriving DecidableEq

/-- Modelled from the spec: the caller-supplied part of a log entry, before the
store assigns the id (each log* convenience method builds one of these). -/
structure LogInput where
  timestamp : Nat
  level : LogLevel
  category : LogCategory
  component : Option String
  message : String
deriving DecidableEq

/-- The store's size limit (logs.ts, quoted in
src/observability-system-package/QUICKSTART.md line 1026). -/
def MAX_LOGS : Nat := 1000

/-- Modelled from the spec: the event log store holds the entries oldest to
newest plus the counter that makes assigned ids unique. -/
structure EventLogStore where
  logs : List LogEntry
  nextId : Nat
deriving DecidableEq

/-- A fresh empty store. -/
def EventLogStore.emptyStore : EventLogStore := ⟨[], 0⟩

/-- The entry the store builds for an input: the next id, the input's fields,
read initially false. -/
def mkEntry (i : Nat) (d : LogInput) : LogEntry :=
  ⟨i, d.timestamp, d.level, d.category, d.component, d.message, false⟩

/-- Modelled from the spec: append assigns the unique id and the timestamp,
inserts at the newest end, and if the store now exceeds MAX_LOGS evicts the
oldest entries until back at the limit (FIFO). -/
def EventLogStore.append (s : EventLogStore) (d : LogInput) : EventLogStore :=
  let grown := s.logs ++ [mkEntry s.nextId d]
  { logs := if MAX_LOGS < grown.length then grown.drop (grown.length - MAX_LOGS)
            else grown,
    nextId := s.nextId + 1 }

/-- Appends a whole list of inputs, oldest first. -/
def EventLogStore.appendAll (s : EventLogStore) (ds : List LogInput) : EventLogStore :=
  ds.foldl EventLogStore.append s

/-- The entries a sequence of appends builds when the id counter starts at i. -/
def storedEntries (i : Nat) : List LogInput → List LogEntry
  | [] => []
  | d :: ds => mkEntry i d :: storedEntries (i + 1) ds

/-- Modelled from the spec: getLogs returns the stored entries. -/
def EventLogStore.getLogs (s : EventLogStore) : List LogEntry := s.logs

/-- Modelled from the spec: the optional filter fields of getFilteredLogs. -/
structure LogFilter where
  level : Option LogLevel
  category : Option LogCategory
  component : Option String
  since : Option Nat

/-- Modelled from the spec: an entry matches a filter when every provided field
matches; an absent field matches everything; since keeps entries whose
timestamp is at or after the bound. -/
def matchesFilter (f : LogFilter) (e : LogEntry) : Bool :=
  (match f.level with
   | none => true
   | some lv => decide (e.level = lv))
  && (match f.category with
      | none => true
      | some c => decide (e.category = c))
  && (match f.component with
      | none => true
      | some c => decide (e.component = some c))
  && (match f.since with
      | none => true
      | some t => decide (t ≤ e.timestamp))

/-- Modelled from the spec: getFilteredLogs keeps the entries matching the
conjunction of the provided filter fields. -/
def EventLogStore.getFilteredLogs (s : EventLogStore) (f : LogFilter) : List LogEntry :=
  s.logs.filter (matchesFilter f)

/-- Modelled from the spec: markAsRead sets the read flag of the entry with the
given id. -/
def EventLogStore.markAsRead (s : EventLogStore) (i : Nat) : EventLogStore :=
  { s with logs := s.logs.map (fun e => if e.id = i then { e with read := true } else e) }

/-- Modelled from the spec: markAllAsRead sets every entry's read flag. -/
def EventLogStore.markAllAsRead (s : EventLogStore) : EventLogStore :=
  { s with logs := s.logs.map (fun e => { e with read := true }) }

/-- An entry with its read flag cleared: two entries agree on every field other
than read exactly when stripRead maps them to the same value. -/
def stripRead (e : LogEntry) : LogEntry := { e with read := false }

/-- A concrete log input used by witnesses. -/
def sampleInput : LogInput := ⟨0, LogLevel.info, LogCategory.system, none, ("boot")⟩

/-- Modelled from the spec: the states of the health state machine of section
4.4 (localModelHealthMonitor.ts is not included in the repository). -/
inductive HStatus
  | unknown
  | checking
  | healthy
  | unhealthy
deriving DecidableEq

/-- Modelled from the spec: every registered provider starts in the unknown
state. -/
def initialStatuses : String → HStatus := fun _ => HStatus.unknown

/-- Overwrites one provider's recorded status, leaving the others alone. -/
def updateStatus (st : String → HStatus) (p : String) (r : HStatus) :
    String → HStatus :=
  fun q => if q = p then r else st q

/-- Modelled from the spec: processing a sequence of resolved health checks
(provider, resolved status).  Each check records its resolved status for its
provider and emits a statusChanged notification exactly when the resolved
status differs from the immediately preceding recorded status for that
provider; the returned list is the emission trace in order. -/
def healthRun (st : String → HStatus) : List (String × HStatus) → List (String × HStatus)
  | [] => []
  | (p, r) :: cs =>
    (if st p = r then [] else [(p, r)]) ++ healthRun (updateStatus st p r) cs

/-- The recorded statuses after a sequence of resolved checks. -/
def finalStatuses (st : String → HStatus) : List (String × HStatus) → (String → HStatus)
  | [] => st
  | (p, r) :: cs => finalStatuses (updateStatus st p r) cs

/-- Modelled from the spec: the debounced terminal capture of section 4.2 and
the timer-reset pattern of section 9 (debugLogger.ts is not included in the
repository).  The input is the call sequence as (time, text) pairs in arrival
order; a pending entry flushes only when the next call arrives more than ms
after it (the window resets on each call), and the final pending entry flushes
at the end; within a window the latest text wins.  The returned list is the
sequence of buffered terminal entries. -/
def debounceFlushes (ms : Nat) : List (Nat × String) → List String
  | [] => []
  | [(_, s)] => [s]
  | (t, s) :: (u, v) :: rest =>
    if u - t ≤ ms then debounceFlushes ms ((u, v) :: rest)
    else s :: debounceFlushes ms ((u, v) :: rest)

/-- Modelled from the spec: the derived connection issue classification. -/
inductive ConnIssue
  | disconnected
  | highLatency
deriving DecidableEq

/-- Modelled from the spec: the connection status record; issue none models
the null issue. -/
structure ConnStatus where
  connected : Bool
  latency : Nat
  issue : Option ConnIssue
deriving DecidableEq

/-- The host environment a connection check observes: the connectivity
primitive (navigator.onLine) and, per endpoint, the probe outcome (none for
unreachable, else the measured latency in ms). -/
structure ConnEnv where
  online : Bool
  probe : String → Option Nat

/-- The fallback endpoints tried in order (documented in
src/unnamed/part_000 line 425). -/
def connectionEndpoints : List String :=
  [("/api/health"), ("/"), ("/favicon.ico")]

/-- The fixed high-latency threshold in milliseconds. -/
def LATENCY_THRESHOLD : Nat := 1000

/-- Tries the endpoints in order until one responds: the first reachable
endpoint's latency (if any) together with the list of endpoints actually
probed, in order. -/
def probeSequence (env : ConnEnv) : List String → Option Nat × List String
  | [] => (none, [])
  | u :: us =>
    match env.probe u with
    | some l => (some l, [u])
    | none =>
      let r := probeSequence env us
      (r.1, u :: r.2)

/-- The first reachable endpoint of a list together with its latency. -/
def firstReachable (env : ConnEnv) : List String → Option (String × Nat)
  | [] => none
  | u :: us =>
    match env.probe u with
    | some l => some (u, l)
    | none => firstReachable env us

/-- Modelled from the spec: checkConnection of section 4.5 (connection.ts is
not included in the repository).  If the host reports offline the check
short-circuits to disconnected without probing; otherwise the fallback
endpoints are tried in order, the first reachable one determines the result,
and the issue is high-latency exactly when the measured latency exceeds the
fixed threshold.  The second component is the list of endpoints probed. -/
def checkConnection (env : ConnEnv) : ConnStatus × List String :=
  if env.online then
    match probeSequence env connectionEndpoints with
    | (some l, probed) =>
      (⟨true, l, if LATENCY_THRESHOLD < l then some ConnIssue.highLatency else none⟩,
        probed)
    | (none, probed) => (⟨false, 0, some ConnIssue.disconnected⟩, probed)
  else (⟨false, 0, some ConnIssue.disconnected⟩, [])

/-- Modelled from the spec: the materialized point-in-time snapshot getDebugLog
returns (section 4.2; the static system metadata and performance summary are
outside the model). -/
structure DebugSnapshot where
  logs : List String
  errors : List String
  networkRequests : List String
  userActions : List String
  terminalLogs : List String
deriving DecidableEq

/-- Modelled from the spec: the capture engine owns five independent ring
buffers; the snapshots field holds every snapshot handed out so far, so that
aliasing between live buffers and snapshots is expressible in the model. -/
structure CaptureEngine where
  logBuffer : RingBuffer String
  errorBuffer : RingBuffer String
  networkBuffer : RingBuffer String
  actionBuffer : RingBuffer String
  terminalBuffer : RingBuffer String
  snapshots : List DebugSnapshot

/-- Modelled from the spec: getDebugLog materializes all five buffers into one
snapshot value (a copy of the buffer contents). -/
def getDebugLog (e : CaptureEngine) : DebugSnapshot :=
  ⟨e.logBuffer.toArray, e.errorBuffer.toArray, e.networkBuffer.toArray,
    e.actionBuffer.toArray, e.terminalBuffer.toArray⟩

/-- Takes a snapshot and records it among the handed-out snapshots. -/
def takeSnapshot (e : CaptureEngine) : CaptureEngine :=
  { e with snapshots := getDebugLog e :: e.snapshots }

/-- The mutations of the live capture buffers: pushes into each of the five
channels (with their silent evictions) and clearing all buffers. -/
inductive CaptureOp
  | pushLog (s : String)
  | pushError (s : String)
  | pushNetwork (s : String)
  | pushAction (s : String)
  | pushTerminal (s : String)
  | clearAll

/-- Applies one buffer mutation to the engine. -/
def applyOp (e : CaptureEngine) : CaptureOp → CaptureEngine
  | CaptureOp.pushLog s => { e with logBuffer := e.logBuffer.push s }
  | CaptureOp.pushError s => { e with errorBuffer := e.errorBuffer.push s }
  | CaptureOp.pushNetwork s => { e with networkBuffer := e.networkBuffer.push s }
  | CaptureOp.pushAction s => { e with actionBuffer := e.actionBuffer.push s }
  | CaptureOp.pushTerminal s => { e with terminalBuffer := e.terminalBuffer.push s }
  | CaptureOp.clearAll =>
    { e with
      logBuffer := e.logBuffer.clear
      errorBuffer := e.errorBuffer.clear
      networkBuffer := e.networkBuffer.clear
      actionBuffer := e.actionBuffer.clear
      terminalBuffer := e.terminalBuffer.clear }

/-- Applies a sequence of buffer mutations, oldest first. -/
def applyOps (e : CaptureEngine) (ops : List CaptureOp) : CaptureEngine :=
  ops.foldl applyOp e

/-- Strings of the branch watcher (branch-watcher.js, src/unnamed/part_001),
modelled as their character sequences so every operation computes. -/
abbrev GitStr := List Char

/-- Code-unit lexicographic comparison, the default comparator of the
JavaScript Array sort used on branch names. -/
def lexLe : GitStr → GitStr → Bool
  | [], _ => true
  | _ :: _, [] => false
  | a :: as, b :: bs => if a = b then lexLe as bs else decide (a < b)

/-- The lexicographic order as a relation, for the sort. -/
def nameLe (a b : GitStr) : Prop := lexLe a b = true

instance : DecidableRel nameLe := fun a b => instDecidableEqBool (lexLe a b) true

instance : IsTotal GitStr nameLe where
  total a b := by
    induction a generalizing b with
    | nil => exact Or.inl rfl
    | cons c cs ih =>
      cases b with
      | nil => exact Or.inr rfl
      | cons d ds =>
        by_cases hcd : c = d
        · subst hcd
          rcases ih ds with h | h
          · exact Or.inl (by simp [nameLe, lexLe] at h ⊢; exact h)
          · exact Or.inr (by simp [nameLe, lexLe] at h ⊢; exact h)
        · rcases lt_trichotomy c d with h | h | h
          · exact Or.inl (by simp [nameLe, lexLe, hcd, h])
          · exact absurd h hcd
          · exact Or.inr (by simp [nameLe, lexLe, Ne.symm hcd, h])

instance : IsTrans GitStr nameLe where
  trans a b c h₁ h₂ := by
    induction a generalizing b c with
    | nil => rfl
    | cons x xs ih =>
      cases b with
      | nil => simp [nameLe, lexLe] at h₁
      | cons y ys =>
        cases c with
        | nil => simp [nameLe, lexLe] at h₂
        | cons z zs =>
          by_cases hxy : x = y <;> by_cases hyz : y = z
          · subst hxy
            subst hyz
            simp only [nameLe, lexLe, if_true, eq_self_iff_true] at h₁ h₂ ⊢
            exact ih ys zs h₁ h₂
          · subst hxy
            simp only [nameLe, lexLe, if_true, eq_self_iff_true, if_neg hyz] at h₂ ⊢
            exact h₂
          · subst hyz
            simp only [nameLe, lexLe, if_true, eq_self_iff_true, if_neg hxy] at h₁ ⊢
            exact h₁
          · simp only [nameLe, lexLe, if_neg hxy, if_neg hyz,
              decide_eq_true_eq] at h₁ h₂
            have hxz : x < z := lt_trans h₁ h₂
            simp only [nameLe, lexLe, if_neg (ne_of_lt hxz), decide_eq_true_eq]
            exact hxz

/-- Does the second sequence start with the first (the regex test
claudeBranchPattern performs on a branch name). -/
def startsWithL (p s : GitStr) : Bool :=
  match p, s with
  | [], _ => true
  | _ :: _, [] => false
  | a :: ps, b :: ss => a = b && startsWithL ps ss

/-- Removes the first occurrence of pat, like the JavaScript
String.replace(pat, empty) the watcher applies to drop the origin remote
prefix. -/
def removeFirstL (pat : GitStr) : GitStr → GitStr
  | [] => []
  | c :: cs =>
    if startsWithL pat (c :: cs) then (c :: cs).drop pat.length
    else c :: removeFirstL pat cs

/-- A space character, for trimming the git branch output lines. -/
def isSpace (c : Char) : Bool := decide (c = ' ')

/-- The String.trim of the watcher, modelled for the space padding git branch
output carries. -/
def trimL (s : GitStr) : GitStr :=
  ((s.dropWhile isSpace).reverse.dropWhile isSpace).reverse

/-- The claude branch pattern of CONFIG (a regex anchored at the start). -/
def claudePattern : GitStr := ("claude/").data

/-- The remote prefix the watcher strips from git branch -r output. -/
def originRemote : GitStr := ("origin/").data

/-- From the source (branch-watcher.js, getClaudeBranches, src/unnamed/part_001
lines 870-882): the raw git branch -r lines are trimmed, kept when the name
with the origin remote prefix removed matches the claude pattern, and mapped
to that stripped name. -/
def getClaudeBranches (branchLines : List GitStr) : List GitStr :=
  ((branchLines.map trimL).filter
    (fun b => startsWithL claudePattern (removeFirstL originRemote b))).map
    (removeFirstL originRemote)

/-- From the source (branch-watcher.js currentState and saveState): the
watcher state persisted to the state file. -/
structure WState where
  lastCommit : Option GitStr
  lastBranch : Option GitStr
  processedCommits : List GitStr
deriving DecidableEq

/-- The watcher's memory state together with the persisted state file (none
before the first save). -/
structure WatcherSys where
  mem : WState
  file : Option WState
deriving DecidableEq

/-- What one polling tick observes of the outside world: the git branch -r
output lines, the tip commit of each remote branch (git rev-parse), and
whether git log resolves the commit's info (getCommitInfo success). -/
structure TickEnv where
  branchLines : List GitStr
  tip : GitStr → Option GitStr
  infoOk : GitStr → Bool

/-- From the source (branch-watcher.js saveState, lines 843-853): writes the
in-memory state to the state file. -/
def saveState (σ : WatcherSys) : WatcherSys := { σ with file := some σ.mem }

/-- From the source (branch-watcher.js handleNewCommit, lines 913-984): when
the commit info resolves, the handler updates lastCommit, lastBranch and
processedCommits and saves the state; when getCommitInfo fails it logs and
returns without touching the state.  The fetch, checkout, install and restart
shell commands do not touch the watcher state and are outside the model. -/
def handleNewCommit (env : TickEnv) (branch commit : GitStr) (σ : WatcherSys) :
    WatcherSys :=
  if env.infoOk commit then
    saveState { σ with
      mem := ⟨some commit, some branch, σ.mem.processedCommits ++ [commit]⟩ }
  else σ

/-- From the source (branch-watcher.js pollForChanges, lines 987-1022): fetch,
list the claude branches, sort ascending and reverse so index zero is the
lexicographically greatest, read that branch's tip, and hand the commit to
handleNewCommit only when it differs from lastCommit and is not in
processedCommits.  The second component reports the (branch, commit) handed to
handleNewCommit this tick, if any. -/
def pollForChanges (env : TickEnv) (σ : WatcherSys) :
    WatcherSys × Option (GitStr × GitStr) :=
  match ((List.insertionSort nameLe (getClaudeBranches env.branchLines)).reverse).head? with
  | none => (σ, none)
  | some latestBranch =>
    match env.tip latestBranch with
    | none => (σ, none)
    | some latestCommit =>
      if some latestCommit ≠ σ.mem.lastCommit
          ∧ latestCommit ∉ σ.mem.processedCommits then
        (handleNewCommit env latestBranch latestCommit σ,
          some (latestBranch, latestCommit))
      else (σ, none)

/-- Runs the polling loop over a sequence of tick observations. -/
def runWatcher (σ : WatcherSys) : List TickEnv → WatcherSys
  | [] => σ
  | env :: envs => runWatcher (pollForChanges env σ).1 envs

/-- The commit a tick processes to completion, if any: the handed commit when
its info also resolves. -/
def stepCompletion (env : TickEnv) (σ : WatcherSys) : List GitStr :=
  match (pollForChanges env σ).2 with
  | some (_, c) => if env.infoOk c then [c] else []
  | none => []

/-- The commits a run processes to completion, in order. -/
def completions (σ : WatcherSys) : List TickEnv → List GitStr
  | [] => []
  | env :: envs => stepCompletion env σ ++ completions (pollForChanges env σ).1 envs

/-- A fresh watcher state: nothing processed, nothing persisted. -/
def initSys : WatcherSys := ⟨⟨none, none, []⟩, none⟩

/-- A concrete tick observation with two claude branches, used by witnesses. -/
def envTwo : TickEnv :=
  ⟨[("  origin/claude/a").data, ("  origin/claude/b").data],
    fun b => if b = ("claude/b").data then some (("c2").data)
             else some (("c1").data),
    fun _ => true⟩

theorem length_lastN {α : Type} (n : Nat) (l : List α) :
    (lastN n l).length = l.length - (l.length - n) := by
  simp [lastN]

theorem lastN_of_length_le {α : Type} {n : Nat} {l : List α} (h : l.length ≤ n) :
    lastN n l = l := by
  simp [lastN, Nat.sub_eq_zero_of_le h]

theorem lastN_nil {α : Type} (n : Nat) : lastN n ([] : List α) = [] := by
  simp [lastN]

theorem lastN_append {α : Type} (n : Nat) (l xs : List α) :
    lastN n (lastN n l ++ xs) = lastN n (l ++ xs) := by
  have hb : (List.drop (l.length - n) l).length = l.length - (l.length - n) := by
    simp
  simp only [lastN, List.length_append, List.drop_append_eq_append_drop,
    List.drop_drop]
  congr 2
  · omega
  · omega

theorem pushAll_buf {α : Type} (n : Nat) (l xs : List α) :
    (RingBuffer.pushAll ⟨n, lastN n l⟩ xs).buf = lastN n (l ++ xs) := by
  induction xs generalizing l with
  | nil => simp [RingBuffer.pushAll]
  | cons x xs ih =>
    have hstep : RingBuffer.push (⟨n, lastN n l⟩ : RingBuffer α) x
        = ⟨n, lastN n (l ++ [x])⟩ := by
      simp [RingBuffer.push, lastN_append]
    calc (RingBuffer.pushAll ⟨n, lastN n l⟩ (x :: xs)).buf
        = (RingBuffer.pushAll ⟨n, lastN n (l ++ [x])⟩ xs).buf := by
          simp [RingBuffer.pushAll, hstep]
      _ = lastN n ((l ++ [x]) ++ xs) := ih (l ++ [x])
      _ = lastN n (l ++ x :: xs) := by simp

theorem pushAll_from_empty {α : Type} (n : Nat) (xs : List α) :
    (RingBuffer.pushAll (RingBuffer.create α n) xs).buf = lastN n xs := by
  have h : RingBuffer.create α n = ⟨n, lastN n []⟩ := by
    simp [RingBuffer.create, lastN_nil]
  rw [h, pushAll_buf]
  simp

/-- C1: for every capacity N (positive, as configured: the documentation uses
1000) and every sequence of N + k pushes into a fresh RingBuffer, push is
total (never fails), size returns N, toArray returns exactly the last N pushed
items oldest to newest, every intermediate state has size at most N, and a
push into a full buffer evicts exactly the single oldest element. -/
theorem ringBuffer_c1 {α : Type} (N k : Nat) (hN : 0 < N) (xs : List α)
    (hlen : xs.length = N + k) :
    (RingBuffer.pushAll (RingBuffer.create α N) xs).size = N
    ∧ (RingBuffer.pushAll (RingBuffer.create α N) xs).toArray = xs.drop k
    ∧ (∀ j : Nat, (RingBuffer.pushAll (RingBuffer.create α N) (xs.take j)).size ≤ N)
    ∧ (∀ (rb : RingBuffer α) (x : α), rb.capacity = N → rb.size = N →
        (rb.push x).toArray = rb.toArray.tail ++ [x]) := by
  refine ⟨?_, ?_, ?_, ?_⟩
  · have h := pushAll_from_empty N xs
    simp [RingBuffer.size, h, length_lastN]
    omega
  · have h := pushAll_from_empty N xs
    have hk : xs.length - N = k := by omega
    simp [RingBuffer.toArray, h, lastN, hk]
  · intro j
    have h := pushAll_from_empty N (xs.take j)
    simp [RingBuffer.size, h, length_lastN]
    omega
  · intro rb x hcap hsize
    have hlen1 : rb.buf.length = N := hsize
    have hdrop : (rb.buf ++ [x]).length - N = 1 := by
      simp [hlen1]
    simp only [RingBuffer.push, RingBuffer.toArray, lastN, hdrop, hcap]
    rw [List.drop_append_eq_append_drop]
    simp [hlen1, Nat.sub_eq_zero_of_le hN, List.drop_one]

/-- C1 witness: capacity 2, three pushes; the buffer keeps the last two items. -/
theorem ringBuffer_c1_witness :
    0 < 2 ∧ ([10, 20, 30] : List Nat).length = 2 + 1
    ∧ (RingBuffer.pushAll (RingBuffer.create Nat 2) [10, 20, 30]).toArray = [20, 30] :=
  ⟨by decide, by decide,
    (ringBuffer_c1 2 1 (by decide) [10, 20, 30] (by decide)).2.1⟩

theorem append_logs (s : EventLogStore) (d : LogInput) :
    (s.append d).logs = lastN MAX_LOGS (s.logs ++ [mkEntry s.nextId d]) := by
  have heq : (s.append d).logs
      = if MAX_LOGS < (s.logs ++ [mkEntry s.nextId d]).length
        then (s.logs ++ [mkEntry s.nextId d]).drop
          ((s.logs ++ [mkEntry s.nextId d]).length - MAX_LOGS)
        else s.logs ++ [mkEntry s.nextId d] := rfl
  rw [heq]
  split
  next h => rfl
  next h => exact (lastN_of_length_le (Nat.le_of_not_lt h)).symm

theorem append_nextId (s : EventLogStore) (d : LogInput) :
    (s.append d).nextId = s.nextId + 1 := rfl

theorem appendAll_logs (ds : List LogInput) :
    ∀ (s : EventLogStore) (l : List LogEntry), s.logs = lastN MAX_LOGS l →
      (EventLogStore.appendAll s ds).logs
        = lastN MAX_LOGS (l ++ storedEntries s.nextId ds) := by
  induction ds with
  | nil =>
    intro s l hs
    simpa [EventLogStore.appendAll, storedEntries] using hs
  | cons d ds ih =>
    intro s l hs
    have hlog : (s.append d).logs = lastN MAX_LOGS (l ++ [mkEntry s.nextId d]) := by
      rw [append_logs, hs, lastN_append]
    have hrec := ih (s.append d) (l ++ [mkEntry s.nextId d]) hlog
    rw [append_nextId] at hrec
    show (EventLogStore.appendAll (s.append d) ds).logs = _
    rw [hrec, storedEntries, List.append_assoc, List.singleton_append]

theorem appendAll_from_empty (ds : List LogInput) :
    (EventLogStore.appendAll EventLogStore.emptyStore ds).logs
      = lastN MAX_LOGS (storedEntries 0 ds) := by
  have h0 : EventLogStore.emptyStore.logs = lastN MAX_LOGS [] := by
    rw [lastN_nil]
    rfl
  have h := appendAll_logs ds EventLogStore.emptyStore [] h0
  simpa using h

theorem storedEntries_length (i : Nat) (ds : List LogInput) :
    (storedEntries i ds).length = ds.length := by
  induction ds generalizing i with
  | nil => rfl
  | cons d ds ih => simp [storedEntries, ih]

theorem mem_storedEntries_id_le (i : Nat) (ds : List LogInput) :
    ∀ e ∈ storedEntries i ds, i ≤ e.id := by
  induction ds generalizing i with
  | nil => simp [storedEntries]
  | cons d ds ih =>
    intro e he
    rcases (List.mem_cons).1 he with h | h
    · simp [h, mkEntry]
    · exact Nat.le_of_succ_le (ih (i + 1) e h)

theorem storedEntries_pairwise (i : Nat) (ds : List LogInput) :
    (storedEntries i ds).Pairwise (fun a b => a.id < b.id) := by
  induction ds generalizing i with
  | nil => simp [storedEntries]
  | cons d ds ih =>
    refine List.Pairwise.cons ?_ (ih (i + 1))
    intro e he
    have := mem_storedEntries_id_le (i + 1) ds e he
    simp [mkEntry]
    omega

/-- C2 counterexample: the claim as stated demands that after appending
1000 + m entries the retained entries are exactly the m most recent; at m = 0
the store retains 1000 entries, not the 0 most recent (the empty list). -/
theorem eventLogStore_c2_counterexample :
    ¬ ((EventLogStore.appendAll EventLogStore.emptyStore
          (List.replicate 1000 sampleInput)).getLogs
        = lastN 0 (storedEntries 0 (List.replicate 1000 sampleInput))) := by
  intro h
  have h1 : (EventLogStore.appendAll EventLogStore.emptyStore
      (List.replicate 1000 sampleInput)).getLogs.length = 1000 := by
    rw [EventLogStore.getLogs, appendAll_from_empty, length_lastN,
      storedEntries_length, List.length_replicate]
    norm_num [MAX_LOGS]
  have h2 : (lastN 0 (storedEntries 0 (List.replicate 1000 sampleInput))).length = 0 := by
    rw [length_lastN]
    omega
  rw [h, h2] at h1
  omega

/-- C2 (amended): after appending 1000 + m entries the store retains exactly
MAX_LOGS = 1000 entries, namely the 1000 most recent in append order; each
append into a full store evicts exactly the single oldest entry; appends never
push the store above the limit and always insert at the newest end; every
retained entry's assigned id is unique. -/
theorem eventLogStore_c2 (ds : List LogInput) (m : Nat)
    (hlen : ds.length = MAX_LOGS + m) :
    (EventLogStore.appendAll EventLogStore.emptyStore ds).getLogs.length = MAX_LOGS
    ∧ (EventLogStore.appendAll EventLogStore.emptyStore ds).getLogs
        = lastN MAX_LOGS (storedEntries 0 ds)
    ∧ ((EventLogStore.appendAll EventLogStore.emptyStore ds).getLogs.map
        LogEntry.id).Nodup
    ∧ (∀ (s : EventLogStore) (d : LogInput), s.logs.length = MAX_LOGS →
        (s.append d).logs = s.logs.tail ++ [mkEntry s.nextId d])
    ∧ (∀ (s : EventLogStore) (d : LogInput), s.logs.length ≤ MAX_LOGS →
        (s.append d).logs.length ≤ MAX_LOGS
        ∧ (s.append d).logs.getLast? = some (mkEntry s.nextId d)) := by
  have hM : 0 < MAX_LOGS := by norm_num [MAX_LOGS]
  refine ⟨?_, ?_, ?_, ?_, ?_⟩
  · rw [EventLogStore.getLogs, appendAll_from_empty, length_lastN,
      storedEntries_length, hlen]
    omega
  · exact appendAll_from_empty ds
  · have hpw : ((EventLogStore.appendAll EventLogStore.emptyStore ds).getLogs).Pairwise
        (fun a b => a.id < b.id) := by
      rw [EventLogStore.getLogs, appendAll_from_empty, lastN]
      exact List.Pairwise.sublist (List.drop_sublist _ _) (storedEntries_pairwise 0 ds)
    exact (List.pairwise_map).2 (hpw.imp fun hab => Nat.ne_of_lt hab)
  · intro s d hfull
    have hg : (s.logs ++ [mkEntry s.nextId d]).length = MAX_LOGS + 1 := by
      simp [hfull]
    have hd : (s.logs ++ [mkEntry s.nextId d]).length - MAX_LOGS = 1 := by omega
    rw [append_logs, lastN, hd, List.drop_append_eq_append_drop]
    have h1 : 1 - s.logs.length = 0 := by omega
    simp [h1, List.drop_one]
  · intro s d hle
    constructor
    · rw [append_logs, length_lastN]
      omega
    · have hk : (s.logs ++ [mkEntry s.nextId d]).length - MAX_LOGS ≤ s.logs.length := by
        simp only [List.length_append, List.length_cons, List.length_nil]
        omega
      rw [append_logs, lastN, List.drop_append_eq_append_drop,
        Nat.sub_eq_zero_of_le hk]
      simp

/-- C2 witness: appending exactly 1000 concrete inputs leaves exactly 1000
retained entries. -/
theorem eventLogStore_c2_witness :
    (List.replicate 1000 sampleInput).length = MAX_LOGS + 0
    ∧ (EventLogStore.appendAll EventLogStore.emptyStore
        (List.replicate 1000 sampleInput)).getLogs.length = MAX_LOGS :=
  ⟨by rw [List.length_replicate]; norm_num [MAX_LOGS],
    (eventLogStore_c2 (List.replicate 1000 sampleInput) 0
      (by rw [List.length_replicate]; norm_num [MAX_LOGS])).1⟩

/-- C7: getFilteredLogs returns exactly the entries satisfying the conjunction
of all provided filter fields, an absent field matches every entry, and in
particular filtering on level error returns exactly the error-level entries. -/
theorem eventLogStore_c7 :
    (∀ (s : EventLogStore) (f : LogFilter) (e : LogEntry),
        e ∈ s.getFilteredLogs f
          ↔ e ∈ s.getLogs
            ∧ (∀ lv, f.level = some lv → e.level = lv)
            ∧ (∀ c, f.category = some c → e.category = c)
            ∧ (∀ c, f.component = some c → e.component = some c)
            ∧ (∀ t, f.since = some t → t ≤ e.timestamp))
    ∧ (∀ s : EventLogStore,
        s.getFilteredLogs ⟨some LogLevel.error, none, none, none⟩
          = s.getLogs.filter (fun e => decide (e.level = LogLevel.error))) := by
  constructor
  · intro s f e
    rcases f with ⟨fl, fc, fco, fs⟩
    cases fl <;> cases fc <;> cases fco <;> cases fs <;>
      simp [EventLogStore.getFilteredLogs, EventLogStore.getLogs, List.mem_filter,
        matchesFilter, and_assoc]
  · intro s
    have hfun : matchesFilter ⟨some LogLevel.error, none, none, none⟩
        = fun e => decide (e.level = LogLevel.error) := by
      funext e
      simp [matchesFilter]
    simp only [EventLogStore.getFilteredLogs, EventLogStore.getLogs, hfun]

/-- C8: markAllAsRead is idempotent, and both markAsRead and markAllAsRead
mutate only the read flag of entries and never remove (nor add) entries. -/
theorem eventLogStore_c8 :
    (∀ s : EventLogStore, s.markAllAsRead.markAllAsRead = s.markAllAsRead)
    ∧ (∀ s : EventLogStore,
        s.markAllAsRead.logs.map stripRead = s.logs.map stripRead
        ∧ s.markAllAsRead.logs.length = s.logs.length)
    ∧ (∀ (s : EventLogStore) (i : Nat),
        (s.markAsRead i).logs.map stripRead = s.logs.map stripRead
        ∧ (s.markAsRead i).logs.length = s.logs.length) := by
  have hff : ((fun (e : LogEntry) => { e with read := true })
      ∘ (fun (e : LogEntry) => { e with read := true }))
      = fun (e : LogEntry) => { e with read := true } := funext fun e => rfl
  have hsf : (stripRead ∘ (fun (e : LogEntry) => { e with read := true }))
      = stripRead := funext fun e => rfl
  refine ⟨?_, ?_, ?_⟩
  · intro s
    simp only [EventLogStore.markAllAsRead, List.map_map, hff]
  · intro s
    constructor
    · simp only [EventLogStore.markAllAsRead, List.map_map, hsf]
    · simp [EventLogStore.markAllAsRead]
  · intro s i
    have hsi : (stripRead ∘ (fun (e : LogEntry) =>
        if e.id = i then { e with read := true } else e)) = stripRead := by
      funext e
      by_cases h : e.id = i <;> simp [h, stripRead, Function.comp]
    constructor
    · simp only [EventLogStore.markAsRead, List.map_map, hsi]
    · simp [EventLogStore.markAsRead]

theorem healthRun_chain (cs : List (String × HStatus)) :
    ∀ (st : String → HStatus) (p : String),
      List.Chain' (fun a b => a.2 ≠ b.2)
        ((p, st p) :: (healthRun st cs).filter (fun c => decide (c.1 = p))) := by
  induction cs with
  | nil =>
    intro st p
    simp [healthRun]
  | cons c cs ih =>
    rcases c with ⟨q, r⟩
    intro st p
    rw [healthRun]
    by_cases hq : q = p
    · subst hq
      have h := ih (updateStatus st q r) q
      have hupd : updateStatus st q r q = r := by simp [updateStatus]
      rw [hupd] at h
      by_cases he : st q = r
      · rw [if_pos he]
        rw [List.nil_append, he]
        exact h
      · rw [if_neg he]
        rw [List.singleton_append]
        have hfilter : List.filter (fun c => decide (c.1 = q))
            ((q, r) :: healthRun (updateStatus st q r) cs)
            = (q, r) :: List.filter (fun c => decide (c.1 = q))
                (healthRun (updateStatus st q r) cs) := by
          simp
        rw [hfilter, List.chain'_cons]
        exact ⟨he, h⟩
    · have hpq : ¬ p = q := fun hh => hq hh.symm
      have h := ih (updateStatus st q r) p
      have hupd : updateStatus st q r p = st p := by simp [updateStatus, hpq]
      rw [hupd] at h
      by_cases he : st q = r
      · rw [if_pos he, List.nil_append]
        exact h
      · rw [if_neg he, List.singleton_append]
        have hfilter : List.filter (fun c => decide (c.1 = p))
            ((q, r) :: healthRun (updateStatus st q r) cs)
            = List.filter (fun c => decide (c.1 = p))
                (healthRun (updateStatus st q r) cs) := by
          simp [hq]
        rw [hfilter]
        exact h

/-- C3: a statusChanged notification is emitted if and only if the check's
resolved status differs from the immediately preceding recorded status for
that provider (first conjunct: appending one more check to any run emits
exactly when the resolved status differs from the status recorded after the
prefix), and for every provider the per-provider emission trace never contains
two consecutive events with the same resulting status, so a provider whose
probe always times out never gets two consecutive identical notifications. -/
theorem healthMonitor_c3 :
    (∀ (st : String → HStatus) (cs : List (String × HStatus)) (p : String) (r : HStatus),
        healthRun st (cs ++ [(p, r)])
          = healthRun st cs
            ++ (if finalStatuses st cs p = r then [] else [(p, r)]))
    ∧ (∀ (cs : List (String × HStatus)) (p : String),
        List.Chain' (fun a b => a.2 ≠ b.2)
          ((healthRun initialStatuses cs).filter (fun c => decide (c.1 = p)))) := by
  constructor
  · intro st cs p r
    induction cs generalizing st with
    | nil => simp [healthRun, finalStatuses, updateStatus]
    | cons c cs ih =>
      rcases c with ⟨q, s⟩
      rw [List.cons_append]
      rw [show healthRun st ((q, s) :: (cs ++ [(p, r)]))
          = (if st q = s then [] else [(q, s)])
            ++ healthRun (updateStatus st q s) (cs ++ [(p, r)]) from rfl]
      rw [show healthRun st ((q, s) :: cs)
          = (if st q = s then [] else [(q, s)])
            ++ healthRun (updateStatus st q s) cs from rfl]
      rw [show finalStatuses st ((q, s) :: cs) = finalStatuses (updateStatus st q s) cs
          from rfl]
      rw [ih, List.append_assoc]
  · intro cs p
    exact (healthRun_chain cs initialStatuses p).tail

theorem debounce_lastText (ms : Nat) (cs : List (Nat × String)) :
    ∀ c : Nat × String, List.Chain' (fun a b => b.1 - a.1 ≤ ms) (c :: cs) →
      debounceFlushes ms (c :: cs) = [((c :: cs).getLast (List.cons_ne_nil c cs)).2] := by
  induction cs with
  | nil =>
    intro c hc
    rcases c with ⟨t, s⟩
    simp [debounceFlushes]
  | cons c2 cs2 ih =>
    intro c hc
    rcases c with ⟨t, s⟩
    rcases c2 with ⟨u, v⟩
    have hg : u - t ≤ ms := (List.chain'_cons.1 hc).1
    have htail := (List.chain'_cons.1 hc).2
    have hrec := ih (u, v) htail
    rw [show debounceFlushes ms ((t, s) :: (u, v) :: cs2)
        = if u - t ≤ ms then debounceFlushes ms ((u, v) :: cs2)
          else s :: debounceFlushes ms ((u, v) :: cs2) from rfl]
    rw [if_pos hg, hrec]
    simp [List.getLast_cons]

/-- C4: any nonempty sequence of terminal-capture calls in which each call
arrives within terminalDebounceMs of the previous one (the window resetting on
each call) produces exactly one buffered terminal entry, whose text is the
text of the last call. -/
theorem debounce_c4 (ms : Nat) (calls : List (Nat × String)) (h : calls ≠ [])
    (hgap : List.Chain' (fun a b => b.1 - a.1 ≤ ms) calls) :
    debounceFlushes ms calls = [(calls.getLast h).2] := by
  cases calls with
  | nil => exact absurd rfl h
  | cons c cs => exact debounce_lastText ms cs c hgap

/-- C4 witness: three calls 100 ms apart with a 100 ms window (total span
exceeding the window, showing the reset) coalesce into one entry, the last
text. -/
theorem debounce_c4_witness :
    ([(0, ("a")), (100, ("b")), (200, ("c"))] : List (Nat × String)) ≠ []
    ∧ debounceFlushes 100 [(0, ("a")), (100, ("b")), (200, ("c"))] = [("c")] :=
  ⟨by simp,
    debounce_c4 100 [(0, ("a")), (100, ("b")), (200, ("c"))] (by simp)
      (by norm_num [List.chain'_cons])⟩

theorem probeSequence_eq (env : ConnEnv) (us : List String) :
    (probeSequence env us).1 = (firstReachable env us).map Prod.snd
    ∧ (probeSequence env us).2
      = us.takeWhile (fun u => (env.probe u).isNone)
        ++ (match firstReachable env us with
            | some (u, _) => [u]
            | none => []) := by
  induction us with
  | nil => simp [probeSequence, firstReachable]
  | cons u us ih =>
    cases hp : env.probe u with
    | some l =>
      refine ⟨?_, ?_⟩ <;> simp [probeSequence, firstReachable, hp, List.takeWhile_cons]
    | none =>
      refine ⟨?_, ?_⟩ <;>
        simp [probeSequence, firstReachable, hp, List.takeWhile_cons, ih.1, ih.2]

/-- C5: when the host connectivity primitive reports offline, the connection
check resolves to disconnected without probing any endpoint; otherwise the
fallback endpoints are tried in order, the first reachable one determines the
result, the issue is high-latency exactly when the endpoint is reachable but
the elapsed time exceeds the fixed 1000 ms threshold and null (none) exactly
otherwise, and when no endpoint is reachable the issue is disconnected. -/
theorem connection_c5 :
    (∀ env : ConnEnv, env.online = false →
        checkConnection env = (⟨false, 0, some ConnIssue.disconnected⟩, []))
    ∧ (∀ (env : ConnEnv) (u : String) (l : Nat), env.online = true →
        firstReachable env connectionEndpoints = some (u, l) →
          (checkConnection env).1.connected = true
          ∧ (checkConnection env).1.latency = l
          ∧ ((checkConnection env).1.issue = some ConnIssue.highLatency
              ↔ LATENCY_THRESHOLD < l)
          ∧ ((checkConnection env).1.issue = none ↔ l ≤ LATENCY_THRESHOLD))
    ∧ (∀ env : ConnEnv, env.online = true →
        firstReachable env connectionEndpoints = none →
          (checkConnection env).1 = ⟨false, 0, some ConnIssue.disconnected⟩)
    ∧ (∀ env : ConnEnv, env.online = true →
        (checkConnection env).2
          = connectionEndpoints.takeWhile (fun u => (env.probe u).isNone)
            ++ (match firstReachable env connectionEndpoints with
                | some (u, _) => [u]
                | none => [])) := by
  refine ⟨?_, ?_, ?_, ?_⟩
  · intro env h
    simp [checkConnection, h]
  · intro env u l hon hfr
    rcases hps : probeSequence env connectionEndpoints with ⟨r, probed⟩
    have h1 := (probeSequence_eq env connectionEndpoints).1
    rw [hps, hfr] at h1
    simp at h1
    subst h1
    have hc : checkConnection env
        = (⟨true, l, if LATENCY_THRESHOLD < l then some ConnIssue.highLatency else none⟩,
            probed) := by
      simp [checkConnection, hon, hps]
    rw [hc]
    refine ⟨rfl, rfl, ?_, ?_⟩
    · by_cases hl : LATENCY_THRESHOLD < l <;> simp [hl]
    · by_cases hl : LATENCY_THRESHOLD < l
      · simp [hl]
      · simp [hl]
        omega
  · intro env hon hfr
    rcases hps : probeSequence env connectionEndpoints with ⟨r, probed⟩
    have h1 := (probeSequence_eq env connectionEndpoints).1
    rw [hps, hfr] at h1
    simp at h1
    subst h1
    simp [checkConnection, hon, hps]
  · intro env hon
    rcases hps : probeSequence env connectionEndpoints with ⟨r, probed⟩
    have h2 := (probeSequence_eq env connectionEndpoints).2
    rw [hps] at h2
    simp at h2
    have hsnd : (checkConnection env).2 = probed := by
      cases r <;> simp [checkConnection, hon, hps]
    rw [hsnd, h2]

theorem applyOp_snapshots (e : CaptureEngine) (op : CaptureOp) :
    (applyOp e op).snapshots = e.snapshots := by
  cases op <;> rfl

theorem applyOps_snapshots (ops : List CaptureOp) :
    ∀ e : CaptureEngine, (applyOps e ops).snapshots = e.snapshots := by
  induction ops with
  | nil => intro e; rfl
  | cons op ops ih =>
    intro e
    show (applyOps (applyOp e op) ops).snapshots = e.snapshots
    rw [ih, applyOp_snapshots]

/-- C6: the snapshot returned by getDebugLog is a point-in-time copy: after a
snapshot is taken, any sequence of live-buffer mutations (pushes with their
evictions, or clearing all buffers) leaves the recorded snapshot unchanged:
it still equals the materialization of the buffers at the time it was taken. -/
theorem captureEngine_c6 :
    ∀ (e : CaptureEngine) (ops : List CaptureOp),
      (applyOps (takeSnapshot e) ops).snapshots = getDebugLog e :: e.snapshots := by
  intro e ops
  rw [applyOps_snapshots ops (takeSnapshot e)]
  rfl

theorem pollForChanges_handed (env : TickEnv) (σ : WatcherSys) (b c : GitStr)
    (h : (pollForChanges env σ).2 = some (b, c)) :
    ((List.insertionSort nameLe (getClaudeBranches env.branchLines)).reverse).head?
        = some b
    ∧ env.tip b = some c
    ∧ σ.mem.lastCommit ≠ some c
    ∧ c ∉ σ.mem.processedCommits
    ∧ (pollForChanges env σ).1 = handleNewCommit env b c σ := by
  unfold pollForChanges at h ⊢
  cases hhead : ((List.insertionSort nameLe (getClaudeBranches env.branchLines)).reverse).head? with
  | none => simp [hhead] at h
  | some lb =>
    simp only [hhead] at h ⊢
    cases htip : env.tip lb with
    | none => simp [htip] at h
    | some lc =>
      simp only [htip] at h ⊢
      by_cases hguard : some lc ≠ σ.mem.lastCommit ∧ lc ∉ σ.mem.processedCommits
      · simp only [if_pos hguard] at h ⊢
        simp at h
        obtain ⟨hb, hc⟩ := h
        subst hb
        subst hc
        exact ⟨rfl, htip, fun hEq => hguard.1 hEq.symm, hguard.2, rfl⟩
      · simp [if_neg hguard] at h

theorem pollForChanges_state_of_none (env : TickEnv) (σ : WatcherSys)
    (h : (pollForChanges env σ).2 = none) : (pollForChanges env σ).1 = σ := by
  unfold pollForChanges at h ⊢
  cases hhead : ((List.insertionSort nameLe (getClaudeBranches env.branchLines)).reverse).head? with
  | none => simp [hhead]
  | some lb =>
    simp only [hhead] at h ⊢
    cases htip : env.tip lb with
    | none => simp [htip]
    | some lc =>
      simp only [htip] at h ⊢
      by_cases hguard : some lc ≠ σ.mem.lastCommit ∧ lc ∉ σ.mem.processedCommits
      · simp [if_pos hguard] at h
      · simp [if_neg hguard]

theorem handleNewCommit_infoOk (env : TickEnv) (b c : GitStr) (σ : WatcherSys)
    (h : env.infoOk c = true) :
    handleNewCommit env b c σ
      = ⟨⟨some c, some b, σ.mem.processedCommits ++ [c]⟩,
          some ⟨some c, some b, σ.mem.processedCommits ++ [c]⟩⟩ := by
  simp [handleNewCommit, saveState, h]

theorem handleNewCommit_infoFail (env : TickEnv) (b c : GitStr) (σ : WatcherSys)
    (h : env.infoOk c = false) : handleNewCommit env b c σ = σ := by
  simp [handleNewCommit, h]

/-- C9: the branch watcher processes each commit hash at most once.  A commit
is handed to handleNewCommit only when it differs from the recorded lastCommit
and is not in processedCommits; when its commit info resolves, processing
records it as lastCommit and lastBranch, adds it to processedCommits and
persists the whole state to the state file; and over any run starting from a
duplicate-free state, processedCommits stays duplicate-free and grows by
exactly the commits processed to completion, each appearing once. -/
theorem branchWatcher_c9 :
    (∀ (env : TickEnv) (σ : WatcherSys) (b c : GitStr),
        (pollForChanges env σ).2 = some (b, c) →
          σ.mem.lastCommit ≠ some c ∧ c ∉ σ.mem.processedCommits)
    ∧ (∀ (env : TickEnv) (σ : WatcherSys) (b c : GitStr),
        (pollForChanges env σ).2 = some (b, c) → env.infoOk c = true →
          (pollForChanges env σ).1.mem.lastCommit = some c
          ∧ (pollForChanges env σ).1.mem.lastBranch = some b
          ∧ (pollForChanges env σ).1.mem.processedCommits
              = σ.mem.processedCommits ++ [c]
          ∧ (pollForChanges env σ).1.file = some (pollForChanges env σ).1.mem)
    ∧ (∀ (envs : List TickEnv) (σ : WatcherSys), σ.mem.processedCommits.Nodup →
        (runWatcher σ envs).mem.processedCommits
            = σ.mem.processedCommits ++ completions σ envs
          ∧ (runWatcher σ envs).mem.processedCommits.Nodup
          ∧ (completions σ envs).Nodup) := by
  refine ⟨?_, ?_, ?_⟩
  · intro env σ b c h
    have hg := pollForChanges_handed env σ b c h
    exact ⟨hg.2.2.1, hg.2.2.2.1⟩
  · intro env σ b c h hInfo
    have hg := pollForChanges_handed env σ b c h
    rw [hg.2.2.2.2, handleNewCommit_infoOk env b c σ hInfo]
    exact ⟨rfl, rfl, rfl, rfl⟩
  · intro envs
    induction envs with
    | nil =>
      intro σ hnd
      exact ⟨by simp [runWatcher, completions], hnd, by simp [completions]⟩
    | cons env envs ih =>
      intro σ hnd
      have hrun : runWatcher σ (env :: envs)
          = runWatcher (pollForChanges env σ).1 envs := rfl
      have hcomp : completions σ (env :: envs)
          = stepCompletion env σ ++ completions (pollForChanges env σ).1 envs := rfl
      cases hstep : (pollForChanges env σ).2 with
      | none =>
        have hs1 : (pollForChanges env σ).1 = σ :=
          pollForChanges_state_of_none env σ hstep
        have hsc : stepCompletion env σ = [] := by
          simp [stepCompletion, hstep]
        rw [hrun, hcomp, hs1, hsc]
        simpa using ih σ hnd
      | some bc =>
        rcases bc with ⟨b, c⟩
        have hg := pollForChanges_handed env σ b c hstep
        cases hInfo : env.infoOk c with
        | false =>
          have hs1 : (pollForChanges env σ).1 = σ := by
            rw [hg.2.2.2.2, handleNewCommit_infoFail env b c σ hInfo]
          have hsc : stepCompletion env σ = [] := by
            simp [stepCompletion, hstep, hInfo]
          rw [hrun, hcomp, hs1, hsc]
          simpa using ih σ hnd
        | true =>
          have hσ1 : (pollForChanges env σ).1
              = ⟨⟨some c, some b, σ.mem.processedCommits ++ [c]⟩,
                  some ⟨some c, some b, σ.mem.processedCommits ++ [c]⟩⟩ := by
            rw [hg.2.2.2.2, handleNewCommit_infoOk env b c σ hInfo]
          have hsc : stepCompletion env σ = [c] := by
            simp [stepCompletion, hstep, hInfo]
          have hnotin : c ∉ σ.mem.processedCommits := hg.2.2.2.1
          have hnd' : ((pollForChanges env σ).1).mem.processedCommits.Nodup := by
            rw [hσ1]
            simp [List.nodup_append, hnd, hnotin]
          obtain ⟨ihEq, ihNd, ihCnd⟩ := ih (pollForChanges env σ).1 hnd'
          refine ⟨?_, ?_, ?_⟩
          · rw [hrun, ihEq, hcomp, hsc, hσ1]
            simp [List.append_assoc]
          · rw [hrun]
            exact ihNd
          · rw [hcomp, hsc]
            rw [ihEq, hσ1] at ihNd
            simp only [List.nodup_append] at ihNd
            have hcin : c ∈ σ.mem.processedCommits ++ [c] := by simp
            have hcr : c ∉ completions (pollForChanges env σ).1 envs := by
              intro hmem
              rw [hσ1] at hmem
              exact ihNd.2.2 hcin hmem
            simp only [List.singleton_append, List.nodup_cons]
            exact ⟨hcr, ihCnd⟩

theorem lexLe_refl (a : GitStr) : lexLe a a = true := by
  induction a with
  | nil => rfl
  | cons c cs ih => simp [lexLe, ih]

theorem sorted_getLast_max (l : List GitStr) (hs : List.Sorted nameLe l) :
    ∀ m, l.getLast? = some m → ∀ a ∈ l, nameLe a m := by
  induction l with
  | nil =>
    intro m hm
    simp at hm
  | cons x t ih =>
    intro m hm a ha
    cases t with
    | nil =>
      simp at hm ha
      subst hm
      subst ha
      exact lexLe_refl a
    | cons y t2 =>
      rw [List.getLast?_cons_cons] at hm
      rcases (List.mem_cons).1 ha with hax | ha2
      · subst hax
        have hm_mem : m ∈ y :: t2 := List.mem_of_mem_getLast? hm
        exact List.rel_of_sorted_cons hs m hm_mem
      · exact ih hs.of_cons m hm a ha2

/-- C10: on every polling tick the branch watcher examines at most one branch:
when a (branch, commit) pair is handed to processing, the branch is one of the
claude branches, it is the lexicographically greatest of them (the sort
ascending, reverse, index zero selection), the commit is that branch's tip,
and no other claude branch is processed on that tick, whatever its tip. -/
theorem branchWatcher_c10 (env : TickEnv) (σ : WatcherSys) (b c : GitStr)
    (h : (pollForChanges env σ).2 = some (b, c)) :
    b ∈ getClaudeBranches env.branchLines
    ∧ (∀ a ∈ getClaudeBranches env.branchLines, nameLe a b)
    ∧ env.tip b = some c
    ∧ (∀ a, a ∈ getClaudeBranches env.branchLines → a ≠ b →
        ∀ d, (pollForChanges env σ).2 ≠ some (a, d)) := by
  have hg := pollForChanges_handed env σ b c h
  have hhead := hg.1
  rw [List.head?_reverse] at hhead
  have hsorted := List.sorted_insertionSort nameLe (getClaudeBranches env.branchLines)
  have hmax := sorted_getLast_max _ hsorted b hhead
  have hperm := List.perm_insertionSort nameLe (getClaudeBranches env.branchLines)
  have hbmem : b ∈ getClaudeBranches env.branchLines :=
    hperm.mem_iff.1 (List.mem_of_mem_getLast? hhead)
  refine ⟨hbmem, ?_, hg.2.1, ?_⟩
  · intro a ha
    exact hmax a (hperm.mem_iff.2 ha)
  · intro a ha hne d hsome
    rw [h] at hsome
    have : b = a := by
      simpa using congrArg (fun o => Option.map Prod.fst o) hsome
    exact hne this.symm

/-- C10 witness: with two claude branches, the tick hands exactly the
lexicographically greatest one (claude/b) with its tip, and the other claude
branch is below it in the order. -/
theorem branchWatcher_c10_witness :
    (pollForChanges envTwo initSys).2
        = some ((("claude/b").data), (("c2").data))
    ∧ (("claude/a").data) ∈ getClaudeBranches envTwo.branchLines
    ∧ nameLe (("claude/a").data) (("claude/b").data) := by
  refine ⟨by decide, by decide, ?_⟩
  have h := branchWatcher_c10 envTwo initSys (("claude/b").data) (("c2").data)
    (by decide)
  exact h.2.1 (("claude/a").data) (by decide)
